import Mathlib

/-!
Verification of the Perlin-noise terrain generator in src/main.cpp.

The embedding below translates the noise core of the program into Lean:
the fixed 512-entry permutation table, the linear interpolation helper
lerp, the quintic fade curve, the gradient/offset dot product
gradientDotDistance (a switch over the low three bits of a hash), the
single-octave sampler noiseValue (the sample operation of the spec), and
the six-octave height composition performed per vertex in main
(the heightAt operation of the spec).

Machine floats are modelled by exact rationals, and the C int by Lean
integers.  The int bit-mask gridX = (int)floor(x) & 255 is modelled by
Int.land on the mathematical floor, which agrees with the two's-complement
mask of the source for every in-range int.  Partiality that is undefined
behaviour in the C++ source is made explicit with Option: reading the
permutation table out of bounds yields none, the uncovered default branch
of the switch in gradientDotDistance yields none, and converting an
out-of-int-range float to int (undefined behaviour in C++) yields none in
the checked variant noiseValueChecked.
-/

set_option maxRecDepth 10000

/-- Fixed permutation table of src/main.cpp (512 entries of C type int):
the 256-entry classic Perlin permutation followed by an exact copy. -/
def permutationTable : List ℤ := [
    151, 160, 137, 91, 90, 15, 131, 13, 201, 95, 96, 53, 194, 233, 7, 225,
    140, 36, 103, 30, 69, 142, 8, 99, 37, 240, 21, 10, 23, 190, 6, 148,
    247, 120, 234, 75, 0, 26, 197, 62, 94, 252, 219, 203, 117, 35, 11, 32,
    57, 177, 33, 88, 237, 149, 56, 87, 174, 20, 125, 136, 171, 168, 68, 175,
    74, 165, 71, 134, 139, 48, 27, 166, 77, 146, 158, 231, 83, 111, 229, 122,
    60, 211, 133, 230, 220, 105, 92, 41, 55, 46, 245, 40, 244, 102, 143, 54,
    65, 25, 63, 161, 1, 216, 80, 73, 209, 76, 132, 187, 208, 89, 18, 169,
    200, 196, 135, 130, 116, 188, 159, 86, 164, 100, 109, 198, 173, 186, 3, 64,
    52, 217, 226, 250, 124, 123, 5, 202, 38, 147, 118, 126, 255, 82, 85, 212,
    207, 206, 59, 227, 47, 16, 58, 17, 182, 189, 28, 42, 223, 183, 170, 213,
    119, 248, 152, 2, 44, 154, 163, 70, 221, 153, 101, 155, 167, 43, 172, 9,
    129, 22, 39, 253, 19, 98, 108, 110, 79, 113, 224, 232, 178, 185, 112, 104,
    218, 246, 97, 228, 251, 34, 242, 193, 238, 210, 144, 12, 191, 179, 162, 241,
    81, 51, 145, 235, 249, 14, 239, 107, 49, 192, 214, 31, 181, 199, 106, 157,
    184, 84, 204, 176, 115, 121, 50, 45, 127, 4, 150, 254, 138, 236, 205, 93,
    222, 114, 67, 29, 24, 72, 243, 141, 128, 195, 78, 66, 215, 61, 156, 180,
    151, 160, 137, 91, 90, 15, 131, 13, 201, 95, 96, 53, 194, 233, 7, 225,
    140, 36, 103, 30, 69, 142, 8, 99, 37, 240, 21, 10, 23, 190, 6, 148,
    247, 120, 234, 75, 0, 26, 197, 62, 94, 252, 219, 203, 117, 35, 11, 32,
    57, 177, 33, 88, 237, 149, 56, 87, 174, 20, 125, 136, 171, 168, 68, 175,
    74, 165, 71, 134, 139, 48, 27, 166, 77, 146, 158, 231, 83, 111, 229, 122,
    60, 211, 133, 230, 220, 105, 92, 41, 55, 46, 245, 40, 244, 102, 143, 54,
    65, 25, 63, 161, 1, 216, 80, 73, 209, 76, 132, 187, 208, 89, 18, 169,
    200, 196, 135, 130, 116, 188, 159, 86, 164, 100, 109, 198, 173, 186, 3, 64,
    52, 217, 226, 250, 124, 123, 5, 202, 38, 147, 118, 126, 255, 82, 85, 212,
    207, 206, 59, 227, 47, 16, 58, 17, 182, 189, 28, 42, 223, 183, 170, 213,
    119, 248, 152, 2, 44, 154, 163, 70, 221, 153, 101, 155, 167, 43, 172, 9,
    129, 22, 39, 253, 19, 98, 108, 110, 79, 113, 224, 232, 178, 185, 112, 104,
    218, 246, 97, 228, 251, 34, 242, 193, 238, 210, 144, 12, 191, 179, 162, 241,
    81, 51, 145, 235, 249, 14, 239, 107, 49, 192, 214, 31, 181, 199, 106, 157,
    184, 84, 204, 176, 115, 121, 50, 45, 127, 4, 150, 254, 138, 236, 205, 93,
    222, 114, 67, 29, 24, 72, 243, 141, 128, 195, 78, 66, 215, 61, 156, 180]

/-- Reads permutationTable at an int index.  An out-of-bounds C array read
is undefined behaviour, modelled as none. -/
def permAt (i : ℤ) : Option ℤ :=
  if 0 ≤ i ∧ i < 512 then some (permutationTable.getD i.toNat 0) else none

/-- Linear interpolation lerp of src/main.cpp: a * (1 - w) + b * w. -/
def lerp (w a b : ℚ) : ℚ := a * (1 - w) + b * w

/-- Quintic fade curve of src/main.cpp: t * t * t * (t * (t * 6 - 15) + 10). -/
def fade (t : ℚ) : ℚ := t * t * t * (t * (t * 6 - 15) + 10)

/-- Real-valued reading of the same fade expression, used for the
derivative claims about the fade curve. -/
def fadeReal (t : ℝ) : ℝ := t * t * t * (t * (t * 6 - 15) + 10)

/-- Gradient/offset dot product of src/main.cpp: an eight-case switch on
the hash.  The switch has no default case and falls off the end of the
function for hash outside 0..7 (undefined behaviour), modelled as none. -/
def gradientDotDistance (hash : ℤ) (xOffset zOffset : ℚ) : Option ℚ :=
  if hash = 0 then some (xOffset + zOffset)
  else if hash = 1 then some (-xOffset + zOffset)
  else if hash = 2 then some (xOffset - zOffset)
  else if hash = 3 then some (-xOffset - zOffset)
  else if hash = 4 then some xOffset
  else if hash = 5 then some zOffset
  else if hash = 6 then some (-xOffset)
  else if hash = 7 then some (-zOffset)
  else none

/-- Double permutation-table lookup
permutationTable[permutationTable[gx] + gz] used for each lattice corner
in noiseValue. -/
def cornerHash (gx gz : ℤ) : Option ℤ :=
  (permAt gx).bind fun a => permAt (a + gz)

/-- Lattice index computation of noiseValue: (int)floor(x) & 255,
with the two's-complement bit mask written as Int.land. -/
def gridIndex (x : ℚ) : ℤ := Int.land ⌊x⌋ 255

/-- Body of noiseValue of src/main.cpp after gridX, gridZ and the
fractional parts x, z have been computed: the four corner hashes, the four
gradient dot products (each hash masked with & 7, written as Int.land),
and the bilinear interpolation rescaled by 0.5 * value + 0.5. -/
def noiseCore (gridX gridZ : ℤ) (x z : ℚ) : Option ℚ :=
  let u := fade x
  let v := fade z
  (cornerHash gridX gridZ).bind fun gradientBottomLeft =>
  (cornerHash (gridX + 1) gridZ).bind fun gradientBottomRight =>
  (cornerHash gridX (gridZ + 1)).bind fun gradientTopLeft =>
  (cornerHash (gridX + 1) (gridZ + 1)).bind fun gradientTopRight =>
  (gradientDotDistance (Int.land gradientBottomLeft 7) x z).bind fun dotBottomLeft =>
  (gradientDotDistance (Int.land gradientBottomRight 7) (x - 1) z).bind fun dotBottomRight =>
  (gradientDotDistance (Int.land gradientTopLeft 7) x (z - 1)).bind fun dotTopLeft =>
  (gradientDotDistance (Int.land gradientTopRight 7) (x - 1) (z - 1)).map fun dotTopRight =>
  1/2 * lerp v (lerp u dotBottomLeft dotBottomRight) (lerp u dotTopLeft dotTopRight) + 1/2

/-- Single-octave noise sampler noiseValue of src/main.cpp, the sample
operation of the spec: lattice indices are the masked floors, and the
input is replaced by its fractional part x - floor(x) before the body. -/
def noiseValue (x z : ℚ) : Option ℚ :=
  noiseCore (gridIndex x) (gridIndex z) (x - ⌊x⌋) (z - ⌊z⌋)

/-- Conversion of a float to the C type int, applied by noiseValue to
floor(x): the conversion is undefined behaviour (modelled as none) when
the value does not fit in a 32-bit int. -/
def toInt32 (r : ℤ) : Option ℤ :=
  if -(2 ^ 31) ≤ r ∧ r < 2 ^ 31 then some r else none

/-- Variant of noiseValue that models the float-to-int conversion
(int)floor(x) of src/main.cpp including its 32-bit range restriction. -/
def noiseValueChecked (x z : ℚ) : Option ℚ :=
  (toInt32 ⌊x⌋).bind fun ix =>
  (toInt32 ⌊z⌋).bind fun iz =>
  noiseCore (Int.land ix 255) (Int.land iz 255) (x - ⌊x⌋) (z - ⌊z⌋)

/-- Sum of the six octave terms computed per vertex in main of
src/main.cpp: amplitudes 64, 32, 16, 8, 4, 2 paired with wavelengths
256, 64, 32, 16, 8, 4. -/
def octaveSum (x z : ℚ) : Option ℚ :=
  (noiseValue (x / 256) (z / 256)).bind fun overtone =>
  (noiseValue (x / 64) (z / 64)).bind fun octave1 =>
  (noiseValue (x / 32) (z / 32)).bind fun octave2 =>
  (noiseValue (x / 16) (z / 16)).bind fun octave3 =>
  (noiseValue (x / 8) (z / 8)).bind fun octave4 =>
  (noiseValue (x / 4) (z / 4)).map fun octave5 =>
  64 * overtone + 32 * octave1 + 16 * octave2 + 8 * octave3 + 4 * octave4 + 2 * octave5

/-- Terrain height computed per vertex in main of src/main.cpp, the
heightAt operation of the spec: the octave sum raised to the power 1.2
(real exponentiation, as the C pow), minus 140. -/
noncomputable def heightAt (x z : ℚ) : Option ℝ :=
  (octaveSum x z).map fun s => (s : ℝ) ^ (1.2 : ℝ) - 140

/-- Modelled from the spec (section 4.1 step 5): the eight fixed gradient
directions (1,1), (-1,1), (1,-1), (-1,-1), (1,0), (0,1), (-1,0), (0,-1),
used to compare gradientDotDistance against the dot-product reading. -/
def gradientDirections : List (ℤ × ℤ) :=
  [(1, 1), (-1, 1), (1, -1), (-1, -1), (1, 0), (0, 1), (-1, 0), (0, -1)]

/-! Bridge lemmas: the two's-complement bit masks of the source agree with
arithmetic modulo. -/

theorem natXor255_eq_sub (r : ℕ) (h : r < 256) : (255 ^^^ r : ℕ) = 255 - r := by
  revert h
  revert r
  decide

theorem natAnd255_eq_mod (m : ℕ) : m &&& 255 = m % 256 := by
  have h := Nat.and_pow_two_sub_one_eq_mod m 8
  norm_num at h
  exact h

theorem natLdiff255 (m : ℕ) : Nat.ldiff 255 m = 255 ^^^ (m % 256) := by
  apply Nat.eq_of_testBit_eq
  intro i
  have h256 : (256 : ℕ) = 2 ^ 8 := by norm_num
  rw [Nat.testBit_ldiff, Nat.testBit_xor, h256, Nat.testBit_mod_two_pow]
  have h255 : Nat.testBit 255 i = decide (i < 8) := by
    have h := Nat.testBit_two_pow_sub_one 8 i
    norm_num at h
    exact h
  rcases lt_or_le i 8 with h | h
  · simp [h255, h]
  · simp [h255, Nat.not_lt.mpr h]

theorem intLand255_eq_mod (i : ℤ) : Int.land i 255 = i % 256 := by
  cases i with
  | ofNat m =>
    have h1 : Int.land (Int.ofNat m) 255 = Int.ofNat (m &&& 255) := rfl
    rw [h1, natAnd255_eq_mod]
    simp only [Int.ofNat_eq_natCast]
    omega
  | negSucc m =>
    have h1 : Int.land (Int.negSucc m) 255 = Int.ofNat (Nat.ldiff 255 m) := rfl
    rw [h1, natLdiff255, natXor255_eq_sub _ (Nat.mod_lt _ (by norm_num))]
    have h2 : Int.negSucc m = -(m + 1 : ℤ) := Int.negSucc_eq m
    have h3 : Int.ofNat (255 - m % 256) = ((255 - m % 256 : ℕ) : ℤ) := rfl
    rw [h2, h3]
    have h4 : m % 256 ≤ 255 := by omega
    push_cast [h4]
    omega

theorem intLand7_eq_mod (i : ℤ) (h : 0 ≤ i) : Int.land i 7 = i % 8 := by
  cases i with
  | ofNat m =>
    have h1 : Int.land (Int.ofNat m) 7 = Int.ofNat (m &&& 7) := rfl
    have h2 := Nat.and_pow_two_sub_one_eq_mod m 3
    norm_num at h2
    rw [h1, h2]
    simp only [Int.ofNat_eq_natCast]
    omega
  | negSucc m => exact absurd h (by simp)

/-! Facts about the permutation table and the lookup chain. -/

theorem permutationTable_length : permutationTable.length = 512 := by rfl

theorem permutationTable_mem_range : ∀ v ∈ permutationTable, 0 ≤ v ∧ v ≤ 255 := by decide

theorem permAt_some (i : ℤ) (h0 : 0 ≤ i) (h1 : i < 512) :
    ∃ v, permAt i = some v ∧ 0 ≤ v ∧ v ≤ 255 := by
  refine ⟨permutationTable.getD i.toNat 0, by simp [permAt, h0, h1], ?_⟩
  have hlt : i.toNat < permutationTable.length := by
    rw [permutationTable_length]
    omega
  have hmem : permutationTable.getD i.toNat 0 ∈ permutationTable := by
    rw [List.getD_eq_getElem _ _ hlt]
    exact List.getElem_mem hlt
  exact permutationTable_mem_range _ hmem

theorem cornerHash_some (gx gz : ℤ) (h1 : 0 ≤ gx) (h2 : gx ≤ 256) (h3 : 0 ≤ gz) (h4 : gz ≤ 256) :
    ∃ h, cornerHash gx gz = some h ∧ 0 ≤ h ∧ h ≤ 255 := by
  obtain ⟨a, ha, ha0, ha1⟩ := permAt_some gx h1 (by omega)
  obtain ⟨b, hb, hb0, hb1⟩ := permAt_some (a + gz) (by omega) (by omega)
  exact ⟨b, by simp [cornerHash, ha, hb], hb0, hb1⟩

theorem gradientDotDistance_some (h : ℤ) (h0 : 0 ≤ h) (h7 : h ≤ 7) (xo zo : ℚ) :
    ∃ d, gradientDotDistance h xo zo = some d ∧ |d| ≤ |xo| + |zo| := by
  have bxo := abs_le.mp (le_refl |xo|)
  have bzo := abs_le.mp (le_refl |zo|)
  have bound : ∀ d : ℚ, -(|xo| + |zo|) ≤ d → d ≤ |xo| + |zo| → |d| ≤ |xo| + |zo| := by
    intro d hl hr
    exact abs_le.mpr ⟨hl, hr⟩
  interval_cases h
  · exact ⟨xo + zo, by norm_num [gradientDotDistance], bound _ (by linarith [bxo.1, bzo.1]) (by linarith [bxo.2, bzo.2])⟩
  · exact ⟨-xo + zo, by norm_num [gradientDotDistance], bound _ (by linarith [bxo.2, bzo.1]) (by linarith [bxo.1, bzo.2])⟩
  · exact ⟨xo - zo, by norm_num [gradientDotDistance], bound _ (by linarith [bxo.1, bzo.2]) (by linarith [bxo.2, bzo.1])⟩
  · exact ⟨-xo - zo, by norm_num [gradientDotDistance], bound _ (by linarith [bxo.2, bzo.2]) (by linarith [bxo.1, bzo.1])⟩
  · exact ⟨xo, by norm_num [gradientDotDistance], bound _ (by linarith [bxo.1, abs_nonneg zo]) (by linarith [bxo.2, abs_nonneg zo])⟩
  · exact ⟨zo, by norm_num [gradientDotDistance], bound _ (by linarith [bzo.1, abs_nonneg xo]) (by linarith [bzo.2, abs_nonneg xo])⟩
  · exact ⟨-xo, by norm_num [gradientDotDistance], bound _ (by linarith [bxo.2, abs_nonneg zo]) (by linarith [bxo.1, abs_nonneg zo])⟩
  · exact ⟨-zo, by norm_num [gradientDotDistance], bound _ (by linarith [bzo.2, abs_nonneg xo]) (by linarith [bzo.1, abs_nonneg xo])⟩

/-! Bounds for the fade curve, the interpolation helper and fractional
parts. -/

theorem fade_nonneg (t : ℚ) (h : 0 ≤ t) : 0 ≤ fade t := by
  have key : fade t = t ^ 3 * (6 * t ^ 2 - 15 * t + 10) := by
    unfold fade
    ring
  have h2 : 0 < 6 * t ^ 2 - 15 * t + 10 := by nlinarith [sq_nonneg (t - 5/4)]
  rw [key]
  exact mul_nonneg (pow_nonneg h 3) (le_of_lt h2)

theorem fade_le_one (t : ℚ) (h0 : 0 ≤ t) (h1 : t ≤ 1) : fade t ≤ 1 := by
  have key : 1 - fade t = (1 - t) ^ 3 * (6 * t ^ 2 + 3 * t + 1) := by
    unfold fade
    ring
  have h2 : 0 < 6 * t ^ 2 + 3 * t + 1 := by nlinarith [sq_nonneg (t + 1/4)]
  nlinarith [mul_nonneg (pow_nonneg (by linarith : (0:ℚ) ≤ 1 - t) 3) (le_of_lt h2)]

theorem abs_lerp_le (w a b M : ℚ) (h0 : 0 ≤ w) (h1 : w ≤ 1)
    (ha : |a| ≤ M) (hb : |b| ≤ M) : |lerp w a b| ≤ M := by
  obtain ⟨ha1, ha2⟩ := abs_le.mp ha
  obtain ⟨hb1, hb2⟩ := abs_le.mp hb
  have hw : 0 ≤ 1 - w := by linarith
  unfold lerp
  apply abs_le.mpr
  constructor
  · nlinarith [mul_le_mul_of_nonneg_right ha1 hw, mul_le_mul_of_nonneg_right hb1 h0]
  · nlinarith [mul_le_mul_of_nonneg_right ha2 hw, mul_le_mul_of_nonneg_right hb2 h0]

theorem fract_nonneg_qf (x : ℚ) : 0 ≤ x - ⌊x⌋ := by
  linarith [Int.floor_le x]

theorem fract_lt_one_qf (x : ℚ) : x - ⌊x⌋ < 1 := by
  linarith [Int.lt_floor_add_one x]

/-! The evaluation of the noise body always succeeds when the lattice
indices are in range, and produces the bilinear interpolation of four
bounded corner dot products. -/

theorem noiseCore_run (gx gz : ℤ) (xf zf : ℚ)
    (h1 : 0 ≤ gx) (h2 : gx ≤ 255) (h3 : 0 ≤ gz) (h4 : gz ≤ 255) :
    ∃ dBL dBR dTL dTR : ℚ,
      |dBL| ≤ |xf| + |zf| ∧ |dBR| ≤ |xf - 1| + |zf| ∧
      |dTL| ≤ |xf| + |zf - 1| ∧ |dTR| ≤ |xf - 1| + |zf - 1| ∧
      noiseCore gx gz xf zf =
        some (1/2 * lerp (fade zf) (lerp (fade xf) dBL dBR) (lerp (fade xf) dTL dTR) + 1/2) := by
  obtain ⟨hBL, eBL, hBL0, hBL1⟩ := cornerHash_some gx gz (by omega) (by omega) (by omega) (by omega)
  obtain ⟨hBR, eBR, hBR0, hBR1⟩ := cornerHash_some (gx + 1) gz (by omega) (by omega) (by omega) (by omega)
  obtain ⟨hTL, eTL, hTL0, hTL1⟩ := cornerHash_some gx (gz + 1) (by omega) (by omega) (by omega) (by omega)
  obtain ⟨hTR, eTR, hTR0, hTR1⟩ := cornerHash_some (gx + 1) (gz + 1) (by omega) (by omega) (by omega) (by omega)
  have mBL : 0 ≤ Int.land hBL 7 ∧ Int.land hBL 7 ≤ 7 := by
    rw [intLand7_eq_mod _ hBL0]
    omega
  have mBR : 0 ≤ Int.land hBR 7 ∧ Int.land hBR 7 ≤ 7 := by
    rw [intLand7_eq_mod _ hBR0]
    omega
  have mTL : 0 ≤ Int.land hTL 7 ∧ Int.land hTL 7 ≤ 7 := by
    rw [intLand7_eq_mod _ hTL0]
    omega
  have mTR : 0 ≤ Int.land hTR 7 ∧ Int.land hTR 7 ≤ 7 := by
    rw [intLand7_eq_mod _ hTR0]
    omega
  obtain ⟨dBL, fBL, bBL⟩ := gradientDotDistance_some _ mBL.1 mBL.2 xf zf
  obtain ⟨dBR, fBR, bBR⟩ := gradientDotDistance_some _ mBR.1 mBR.2 (xf - 1) zf
  obtain ⟨dTL, fTL, bTL⟩ := gradientDotDistance_some _ mTL.1 mTL.2 xf (zf - 1)
  obtain ⟨dTR, fTR, bTR⟩ := gradientDotDistance_some _ mTR.1 mTR.2 (xf - 1) (zf - 1)
  refine ⟨dBL, dBR, dTL, dTR, bBL, bBR, bTL, bTR, ?_⟩
  simp only [noiseCore, eBL, eBR, eTL, eTR, fBL, fBR, fTL, fTR, Option.some_bind,
    Option.map_some']

theorem gridIndex_bounds (x : ℚ) : 0 ≤ gridIndex x ∧ gridIndex x ≤ 255 := by
  unfold gridIndex
  rw [intLand255_eq_mod]
  omega

theorem noiseValue_run (x z : ℚ) :
    ∃ w : ℚ, noiseValue x z = some w ∧ -(1/2) ≤ w ∧ w ≤ 3/2 := by
  obtain ⟨hx0, hx1⟩ := gridIndex_bounds x
  obtain ⟨hz0, hz1⟩ := gridIndex_bounds z
  have hxf0 := fract_nonneg_qf x
  have hxf1 := fract_lt_one_qf x
  have hzf0 := fract_nonneg_qf z
  have hzf1 := fract_lt_one_qf z
  obtain ⟨dBL, dBR, dTL, dTR, bBL, bBR, bTL, bTR, hrun⟩ :=
    noiseCore_run (gridIndex x) (gridIndex z) (x - ⌊x⌋) (z - ⌊z⌋) hx0 hx1 hz0 hz1
  have h1 : |dBL| ≤ 2 := by
    refine le_trans bBL ?_
    rw [abs_of_nonneg hxf0, abs_of_nonneg hzf0]
    linarith
  have h2 : |dBR| ≤ 2 := by
    refine le_trans bBR ?_
    rw [abs_of_nonpos (by linarith : x - ⌊x⌋ - 1 ≤ 0), abs_of_nonneg hzf0]
    linarith
  have h3 : |dTL| ≤ 2 := by
    refine le_trans bTL ?_
    rw [abs_of_nonneg hxf0, abs_of_nonpos (by linarith : z - ⌊z⌋ - 1 ≤ 0)]
    linarith
  have h4 : |dTR| ≤ 2 := by
    refine le_trans bTR ?_
    rw [abs_of_nonpos (by linarith : x - ⌊x⌋ - 1 ≤ 0),
      abs_of_nonpos (by linarith : z - ⌊z⌋ - 1 ≤ 0)]
    linarith
  have hu0 := fade_nonneg (x - ⌊x⌋) hxf0
  have hu1 := fade_le_one (x - ⌊x⌋) hxf0 (le_of_lt hxf1)
  have hv0 := fade_nonneg (z - ⌊z⌋) hzf0
  have hv1 := fade_le_one (z - ⌊z⌋) hzf0 (le_of_lt hzf1)
  have hL := abs_lerp_le (fade (z - ⌊z⌋)) _ _ 2 hv0 hv1
    (abs_lerp_le (fade (x - ⌊x⌋)) dBL dBR 2 hu0 hu1 h1 h2)
    (abs_lerp_le (fade (x - ⌊x⌋)) dTL dTR 2 hu0 hu1 h3 h4)
  obtain ⟨hL1, hL2⟩ := abs_le.mp hL
  refine ⟨_, hrun, ?_, ?_⟩
  · linarith
  · linarith

theorem noiseValue_intCast (i j : ℤ) : noiseValue (i : ℚ) (j : ℚ) = some (1/2) := by
  obtain ⟨hx0, hx1⟩ := gridIndex_bounds (i : ℚ)
  obtain ⟨hz0, hz1⟩ := gridIndex_bounds (j : ℚ)
  obtain ⟨dBL, dBR, dTL, dTR, bBL, bBR, bTL, bTR, hrun⟩ :=
    noiseCore_run (gridIndex (i : ℚ)) (gridIndex (j : ℚ)) 0 0 hx0 hx1 hz0 hz1
  have hdBL : dBL = 0 := by
    have h : |dBL| ≤ 0 := by simpa using bBL
    simpa using le_antisymm h (abs_nonneg dBL)
  have hval : noiseValue (i : ℚ) (j : ℚ) = noiseCore (gridIndex (i : ℚ)) (gridIndex (j : ℚ)) 0 0 := by
    unfold noiseValue
    norm_num [Int.floor_intCast]
  rw [hval, hrun, hdBL]
  norm_num [lerp, fade]

/-! Claim theorems. -/

/-- C2: for every hash value h in 0..7 and every offset pair (fx, fz),
gradientDotDistance h fx fz equals the dot product of (fx, fz) with the
fixed direction vector of index h from the list (1,1), (-1,1), (1,-1),
(-1,-1), (1,0), (0,1), (-1,0), (0,-1). -/
theorem claim_C2_gradient_dot (h : ℤ) (h0 : 0 ≤ h) (h7 : h ≤ 7) (fx fz : ℚ) :
    gradientDotDistance h fx fz =
      some (((gradientDirections.getD h.toNat (0, 0)).1 : ℚ) * fx +
        ((gradientDirections.getD h.toNat (0, 0)).2 : ℚ) * fz) := by
  interval_cases h
  · rw [show gradientDirections.getD (0 : ℤ).toNat (0, 0) = (1, 1) from by decide]
    norm_num [gradientDotDistance]
  · rw [show gradientDirections.getD (1 : ℤ).toNat (0, 0) = (-1, 1) from by decide]
    norm_num [gradientDotDistance]
  · rw [show gradientDirections.getD (2 : ℤ).toNat (0, 0) = (1, -1) from by decide]
    norm_num [gradientDotDistance]
    ring
  · rw [show gradientDirections.getD (3 : ℤ).toNat (0, 0) = (-1, -1) from by decide]
    norm_num [gradientDotDistance]
    ring
  · rw [show gradientDirections.getD (4 : ℤ).toNat (0, 0) = (1, 0) from by decide]
    norm_num [gradientDotDistance]
  · rw [show gradientDirections.getD (5 : ℤ).toNat (0, 0) = (0, 1) from by decide]
    norm_num [gradientDotDistance]
  · rw [show gradientDirections.getD (6 : ℤ).toNat (0, 0) = (-1, 0) from by decide]
    norm_num [gradientDotDistance]
  · rw [show gradientDirections.getD (7 : ℤ).toNat (0, 0) = (0, -1) from by decide]
    norm_num [gradientDotDistance]

/-- Witness for C2 at hash 1 and the offset pair (0.3, 0.7). -/
theorem claim_C2_witness :
    gradientDotDistance 1 (3/10) (7/10) =
      some (((gradientDirections.getD (1 : ℤ).toNat (0, 0)).1 : ℚ) * (3/10) +
        ((gradientDirections.getD (1 : ℤ).toNat (0, 0)).2 : ℚ) * (7/10)) :=
  claim_C2_gradient_dot 1 (by norm_num) (by norm_num) (3/10) (7/10)

/-- C3: the sampler is periodic with period 256 in each axis, because the
lattice index is reduced modulo 256 and the table duplicates its first
half. -/
theorem claim_C3_periodic (x z : ℚ) :
    noiseValue (x + 256) z = noiseValue x z ∧ noiseValue x (z + 256) = noiseValue x z := by
  have key : ∀ y : ℚ, gridIndex (y + 256) = gridIndex y ∧ (y + 256) - ⌊y + 256⌋ = y - ⌊y⌋ := by
    intro y
    have hf : ⌊y + 256⌋ = ⌊y⌋ + 256 := by
      have h := Int.floor_add_int y 256
      push_cast at h
      exact h
    constructor
    · unfold gridIndex
      rw [hf, intLand255_eq_mod, intLand255_eq_mod]
      omega
    · rw [hf]
      push_cast
      ring
  constructor
  · unfold noiseValue
    rw [(key x).1, (key x).2]
  · unfold noiseValue
    rw [(key z).1, (key z).2]

/-- C5: at integer inputs both fade weights are fade 0 = 0, the corner
dot product at the lattice point is 0 for every gradient, and the sample
is exactly 1/2. -/
theorem claim_C5_lattice (i j : ℤ) : noiseValue (i : ℚ) (j : ℚ) = some (1/2) :=
  noiseValue_intCast i j

/-- C8: for inputs whose floor fits in the int range, the lattice index
(int)floor(x) & 255 computed by the sampler equals the arithmetic
floor-then-modulo and lies in [0,255], also for negative inputs. -/
theorem claim_C8_grid_index (x : ℚ) (_hlo : -(2^31) ≤ ⌊x⌋) (_hhi : ⌊x⌋ < 2^31) :
    gridIndex x = ⌊x⌋ % 256 ∧ 0 ≤ gridIndex x ∧ gridIndex x ≤ 255 := by
  refine ⟨?_, gridIndex_bounds x⟩
  unfold gridIndex
  rw [intLand255_eq_mod]

/-- Witness for C8 at the negative input x = -3/2, where the mask gives
254 = -2 mod 256 rather than the truncation remainder. -/
theorem claim_C8_witness :
    gridIndex (-3/2) = ⌊(-3/2 : ℚ)⌋ % 256 ∧ 0 ≤ gridIndex (-3/2) ∧ gridIndex (-3/2) ≤ 255 :=
  claim_C8_grid_index (-3/2) (by norm_num) (by norm_num)

/-- C9: under the precondition that the lattice indices are in [0,255],
every double table lookup is in bounds (outer index at most 511) and every
gradient call receives a masked hash in 0..7, so the switch default is
never reached and the noise body returns a value. -/
theorem claim_C9_no_ub :
    (∀ gx gz : ℤ, 0 ≤ gx → gx ≤ 256 → 0 ≤ gz → gz ≤ 256 →
      ∃ h, cornerHash gx gz = some h ∧ 0 ≤ h ∧ h ≤ 255) ∧
    (∀ (gx gz : ℤ) (xf zf : ℚ), 0 ≤ gx → gx ≤ 255 → 0 ≤ gz → gz ≤ 255 →
      ∃ w, noiseCore gx gz xf zf = some w) := by
  constructor
  · exact fun gx gz h1 h2 h3 h4 => cornerHash_some gx gz h1 h2 h3 h4
  · intro gx gz xf zf h1 h2 h3 h4
    obtain ⟨dBL, dBR, dTL, dTR, _, _, _, _, hrun⟩ := noiseCore_run gx gz xf zf h1 h2 h3 h4
    exact ⟨_, hrun⟩

/-- Witness for C9 at lattice indices (0,0) and offsets (0,0). -/
theorem claim_C9_witness : ∃ w, noiseCore 0 0 0 0 = some w :=
  claim_C9_no_ub.2 0 0 0 0 (by norm_num) (by norm_num) (by norm_num) (by norm_num)

/-- C10: every defined sample value lies in the interval [-1/2, 3/2]:
corner dot products have magnitude at most 2, the fade weights lie in
[0,1], and the rescale 0.5 * value + 0.5 maps [-2,2] into [-1/2, 3/2]. -/
theorem claim_C10_range (x z : ℚ) (w : ℚ) (hw : noiseValue x z = some w) :
    -(1/2) ≤ w ∧ w ≤ 3/2 := by
  obtain ⟨w2, hw2, hlo, hhi⟩ := noiseValue_run x z
  rw [hw] at hw2
  obtain rfl : w = w2 := Option.some.inj hw2
  exact ⟨hlo, hhi⟩

/-- Witness for C10 at the input (0,0), where the sample is 1/2. -/
theorem claim_C10_witness : -(1/2 : ℚ) ≤ 1/2 ∧ (1/2 : ℚ) ≤ 3/2 :=
  claim_C10_range 0 0 (1/2) (by simpa using noiseValue_intCast 0 0)

/-- C6: the fade expression equals the quintic 6t^5 - 15t^4 + 10t^3, has
fade 0 = 0, fade 1 = 1, fade (1/2) = 1/2, and the derivative of its real
reading vanishes at 0 and at 1. -/
theorem claim_C6_fade :
    (∀ t : ℚ, fade t = 6 * t^5 - 15 * t^4 + 10 * t^3) ∧
    fade 0 = 0 ∧ fade 1 = 1 ∧ fade (1/2) = 1/2 ∧
    (∀ t : ℝ, fadeReal t = 6 * t^5 - 15 * t^4 + 10 * t^3) ∧
    deriv fadeReal 0 = 0 ∧ deriv fadeReal 1 = 0 := by
  have hpoly : ∀ t : ℝ, fadeReal t = 6 * t^5 - 15 * t^4 + 10 * t^3 := by
    intro t
    unfold fadeReal
    ring
  have hderiv : ∀ x : ℝ, HasDerivAt fadeReal (30*x^4 - 60*x^3 + 30*x^2) x := by
    intro x
    have h := (((hasDerivAt_pow 5 x).const_mul (6:ℝ)).sub
      ((hasDerivAt_pow 4 x).const_mul (15:ℝ))).add ((hasDerivAt_pow 3 x).const_mul (10:ℝ))
    have hfun : (fun t : ℝ => 6 * t^5 - 15 * t^4 + 10 * t^3) = fadeReal := by
      funext t
      rw [hpoly]
    have h2 : HasDerivAt fadeReal
        (6 * (5 * x ^ 4) - 15 * (4 * x ^ 3) + 10 * (3 * x ^ 2)) x := by
      rw [← hfun]
      convert h using 1
    convert h2 using 1
    ring
  refine ⟨?_, by norm_num [fade], by norm_num [fade], by norm_num [fade], hpoly, ?_, ?_⟩
  · intro t
    unfold fade
    ring
  · rw [(hderiv 0).deriv]
    norm_num
  · rw [(hderiv 1).deriv]
    norm_num

/-- Auxiliary: the first 256 entries of the table are a permutation of
0..255. -/
theorem permTake_perm : (permutationTable.take 256).Perm ((List.range 256).map Int.ofNat) := by
  have h : (permutationTable.take 256).isPerm ((List.range 256).map Int.ofNat) = true := by decide
  exact List.isPerm_iff.mp h

/-- C7: the permutation table is a fixed list of 512 integers in [0,255],
its second half copies its first half, the first 256 entries are a
permutation of 0..255, and every value of 0..255 appears exactly twice. -/
theorem claim_C7_table :
    permutationTable.length = 512 ∧
    (∀ v ∈ permutationTable, 0 ≤ v ∧ v ≤ 255) ∧
    permutationTable.drop 256 = permutationTable.take 256 ∧
    (permutationTable.take 256).Perm ((List.range 256).map Int.ofNat) ∧
    (∀ v : ℤ, 0 ≤ v → v ≤ 255 → permutationTable.count v = 2) := by
  have hdt : permutationTable.drop 256 = permutationTable.take 256 := by decide
  refine ⟨permutationTable_length, permutationTable_mem_range, hdt, permTake_perm, ?_⟩
  intro v h0 h1
  have hsplit : permutationTable = permutationTable.take 256 ++ permutationTable.drop 256 :=
    (List.take_append_drop 256 permutationTable).symm
  rw [hsplit, List.count_append, hdt]
  have hmem : v ∈ (List.range 256).map Int.ofNat := by
    refine List.mem_map.mpr ⟨v.toNat, List.mem_range.mpr (by omega), ?_⟩
    simp only [Int.ofNat_eq_natCast]
    omega
  have hnodup : ((List.range 256).map Int.ofNat).Nodup :=
    (List.nodup_range 256).map (fun a b hab => Int.ofNat.inj hab)
  have hcount : (permutationTable.take 256).count v = 1 := by
    rw [permTake_perm.count_eq]
    exact List.count_eq_one_of_mem hnodup hmem
  rw [hcount]

/-- Witness for C7: the value 151 occurs exactly twice in the table. -/
theorem claim_C7_witness : permutationTable.count 151 = 2 :=
  claim_C7_table.2.2.2.2 151 (by norm_num) (by norm_num)

/-- Counterexample to C4 as stated: the claim asserts every evaluation
step, including the float-to-int conversion, is well-defined for every
finite input with no range restriction, but at x = 2^31 the conversion
(int)floor(x) does not fit in a 32-bit int (undefined behaviour in C++),
so the checked evaluation yields no value. -/
theorem claim_C4_counterexample : noiseValueChecked (2147483648 : ℚ) 0 = none := by
  have hf : ⌊(2147483648 : ℚ)⌋ = 2147483648 := by norm_num
  unfold noiseValueChecked toInt32
  rw [hf]
  norm_num

/-- C4 amended: the sampler is total and free of error conditions for all
inputs whose floors fit in the 32-bit int range, and there the checked
evaluation agrees with the ideal model noiseValue. -/
theorem claim_C4_total (x z : ℚ) (hx1 : -(2^31) ≤ ⌊x⌋) (hx2 : ⌊x⌋ < 2^31)
    (hz1 : -(2^31) ≤ ⌊z⌋) (hz2 : ⌊z⌋ < 2^31) :
    noiseValueChecked x z = noiseValue x z ∧ ∃ w, noiseValueChecked x z = some w := by
  have heq : noiseValueChecked x z = noiseValue x z := by
    unfold noiseValueChecked toInt32 noiseValue gridIndex
    rw [if_pos ⟨hx1, hx2⟩, if_pos ⟨hz1, hz2⟩]
    rfl
  obtain ⟨w, hw, _, _⟩ := noiseValue_run x z
  exact ⟨heq, w, heq ▸ hw⟩

/-- Witness for the amended C4 at the input (0,0). -/
theorem claim_C4_witness :
    noiseValueChecked 0 0 = noiseValue 0 0 ∧ ∃ w, noiseValueChecked 0 0 = some w :=
  claim_C4_total 0 0 (by norm_num) (by norm_num) (by norm_num) (by norm_num)

/-- C1: the terrain height is the sum of the six octave terms with
wavelength and amplitude pairs (256,64), (64,32), (32,16), (16,8), (8,4),
(4,2), raised to the power 1.2, minus 140; at (0,0) every octave samples
to 1/2, so the height is (63 : ℝ) ^ 1.2 - 140. -/
theorem claim_C1_octaves :
    (∀ x z a b c d e f : ℚ,
      noiseValue (x / 256) (z / 256) = some a →
      noiseValue (x / 64) (z / 64) = some b →
      noiseValue (x / 32) (z / 32) = some c →
      noiseValue (x / 16) (z / 16) = some d →
      noiseValue (x / 8) (z / 8) = some e →
      noiseValue (x / 4) (z / 4) = some f →
      heightAt x z = some
        (((64 * a + 32 * b + 16 * c + 8 * d + 4 * e + 2 * f : ℚ) : ℝ) ^ (1.2 : ℝ) - 140)) ∧
    heightAt 0 0 = some ((63 : ℝ) ^ (1.2 : ℝ) - 140) := by
  have hgen : ∀ x z a b c d e f : ℚ,
      noiseValue (x / 256) (z / 256) = some a →
      noiseValue (x / 64) (z / 64) = some b →
      noiseValue (x / 32) (z / 32) = some c →
      noiseValue (x / 16) (z / 16) = some d →
      noiseValue (x / 8) (z / 8) = some e →
      noiseValue (x / 4) (z / 4) = some f →
      heightAt x z = some
        (((64 * a + 32 * b + 16 * c + 8 * d + 4 * e + 2 * f : ℚ) : ℝ) ^ (1.2 : ℝ) - 140) := by
    intro x z a b c d e f ha hb hc hd he hf
    unfold heightAt octaveSum
    rw [ha, hb, hc, hd, he, hf]
    simp [Option.some_bind, Option.map_some']
  refine ⟨hgen, ?_⟩
  have hz : ∀ q : ℚ, noiseValue (0 / q) (0 / q) = some (1/2) := by
    intro q
    rw [zero_div]
    have h := noiseValue_intCast 0 0
    push_cast at h
    exact h
  have h1 := hgen 0 0 (1/2) (1/2) (1/2) (1/2) (1/2) (1/2)
    (hz 256) (hz 64) (hz 32) (hz 16) (hz 8) (hz 4)
  rw [h1]
  norm_num

/-- Witness for C1 at the input (0,0) with all six octave samples 1/2. -/
theorem claim_C1_witness :
    heightAt 0 0 = some
      (((64 * (1/2) + 32 * (1/2) + 16 * (1/2) + 8 * (1/2) + 4 * (1/2) + 2 * (1/2) : ℚ) : ℝ)
        ^ (1.2 : ℝ) - 140) := by
  have hz : ∀ q : ℚ, noiseValue (0 / q) (0 / q) = some (1/2) := by
    intro q
    rw [zero_div]
    have h := noiseValue_intCast 0 0
    push_cast at h
    exact h
  exact claim_C1_octaves.1 0 0 (1/2) (1/2) (1/2) (1/2) (1/2) (1/2)
    (hz 256) (hz 64) (hz 32) (hz 16) (hz 8) (hz 4)
